import Mathlib

/-!
Shallow embedding of `src/tagalog_dictionary_scraper.py`
(`TagalogDictionaryScraper`), a crawler that scrapes
https://tagalog.pinoydictionary.com letter by letter, extracts word
entries (headword, part-of-speech tags, definition) from unstructured
definition text, and accumulates them into a dictionary.

Python strings are modelled as `List Char`; Python exceptions are
modelled with `Except PyError`; the ordered Python `dict` is modelled
as an association list with Python's update semantics (updating an
existing key keeps its position, a new key is appended).
-/

namespace TagalogScraper

/-- Python exception kinds distinguished by the embedding.
`noPartOfSpeechFoundError` is modelled from the spec (section 7): the
spec names a dedicated error for definition blocks containing no known
tag; the source never defines or raises it, so no embedded function
ever produces this constructor. -/
inductive PyError where
  | valueError
  | keyError
  | indexError
  | attributeError
  | fetchError
  | noPartOfSpeechFoundError
  deriving DecidableEq, Repr

instance {ε α : Type} [DecidableEq ε] [DecidableEq α] :
    DecidableEq (Except ε α) := fun a b =>
  match a, b with
  | Except.ok x, Except.ok y =>
    if h : x = y then isTrue (by rw [h]) else isFalse (by simp [h])
  | Except.error x, Except.error y =>
    if h : x = y then isTrue (by rw [h]) else isFalse (by simp [h])
  | Except.ok _, Except.error _ => isFalse (by simp)
  | Except.error _, Except.ok _ => isFalse (by simp)

/-- Python's `text.find(pat)`: index of the first occurrence of `pat` in
`text`, `none` standing for Python's `-1`. -/
def strFind : List Char → List Char → Option Nat
  | [], pat => if pat = [] then some 0 else none
  | c :: rest, pat =>
    if pat.isPrefixOf (c :: rest) then some 0
    else (strFind rest pat).map (· + 1)

/-- Python's whitespace test used by `str.strip()` (ASCII cases). -/
def pyIsSpace (c : Char) : Bool :=
  c == ' ' || c == '\t' || c == '\n' || c == '\r' || c == '\x0b' || c == '\x0c'

/-- Python's `str.strip()`: remove leading and trailing whitespace. -/
def pyStrip (s : List Char) : List Char :=
  ((s.dropWhile pyIsSpace).reverse.dropWhile pyIsSpace).reverse

/-- If `strFind` reports an occurrence at `i`, the occurrence fits inside
the text. -/
theorem strFind_bound {s pat : List Char} {i : Nat}
    (h : strFind s pat = some i) : i + pat.length ≤ s.length := by
  induction s generalizing i with
  | nil =>
    by_cases hp : pat = ([] : List Char) <;> simp [strFind, hp] at h
    simp [hp, ← h]
  | cons c rest ih =>
    rw [strFind] at h
    by_cases hp : pat.isPrefixOf (c :: rest)
    · simp [hp] at h
      have := (List.isPrefixOf_iff_prefix.mp hp).length_le
      simpa [← h] using this
    · simp [hp] at h
      obtain ⟨j, hj, rfl⟩ := h
      have := ih hj
      simp only [List.length_cons]
      omega

/-- If `strFind` finds nothing, the pattern occurs nowhere in the text. -/
theorem strFind_none {s pat : List Char} (h : strFind s pat = none) :
    ∀ i, ¬ pat.isPrefixOf (s.drop i) := by
  induction s with
  | nil =>
    intro i hp
    by_cases hp0 : pat = ([] : List Char) <;> simp [strFind, hp0] at h hp
  | cons c rest ih =>
    rw [strFind] at h
    by_cases hpre : pat.isPrefixOf (c :: rest)
    · simp [hpre] at h
    · simp [hpre] at h
      intro i
      cases i with
      | zero => simpa using hpre
      | succ j => simpa using ih h j

/-- Fuel-driven worker for `pySplit`: split off the fragment before the
first occurrence of `sep` and recurse on the remainder.  Each recursive
step strictly shortens the text (for non-empty `sep`), so any fuel
exceeding the text length is enough. -/
def pySplitGo (sep : List Char) : Nat → List Char → List (List Char)
  | 0, s => [s]
  | fuel + 1, s =>
    match strFind s sep with
    | none => [s]
    | some i => s.take i :: pySplitGo sep fuel (s.drop (i + sep.length))

/-- Python's `s.split(sep)` for non-empty `sep`: split on every
(left-to-right, non-overlapping) occurrence of `sep`.  For empty `sep`
(which raises in Python and never occurs in the scraper) it returns
`[s]`. -/
def pySplit (s sep : List Char) : List (List Char) :=
  if sep = [] then [s] else pySplitGo sep (s.length + 1) s

theorem pySplitGo_ne_nil (sep : List Char) (fuel : Nat) (s : List Char) :
    pySplitGo sep fuel s ≠ [] := by
  cases fuel with
  | zero => simp [pySplitGo]
  | succ fuel =>
    rw [pySplitGo]
    match strFind s sep with
    | none => simp
    | some i => simp

/-- `pySplit` always returns at least one fragment. -/
theorem pySplit_ne_nil (s sep : List Char) : pySplit s sep ≠ [] := by
  rw [pySplit]
  by_cases hsep : sep = ([] : List Char)
  · simp [hsep]
  · rw [if_neg hsep]
    exact pySplitGo_ne_nil sep _ s

/-- Python dict assignment `d[k] = v` on an insertion-ordered mapping:
an existing key keeps its position and gets the new value; a new key is
appended at the end. -/
def dictInsert {κ ν : Type} [BEq κ] (d : List (κ × ν)) (k : κ) (v : ν) :
    List (κ × ν) :=
  if d.any (fun kv => kv.1 == k) then
    d.map (fun kv => if kv.1 == k then (k, v) else kv)
  else d ++ [(k, v)]

/-- Python's `max` over a list of naturals, `none` modelling the
`ValueError` raised on an empty sequence. -/
def listMax : List Nat → Option Nat
  | [] => none
  | a :: l =>
    match listMax l with
    | none => some a
    | some m => some (if a ≤ m then m else a)

theorem listMax_eq_none {l : List Nat} : listMax l = none ↔ l = [] := by
  cases l with
  | nil => simp [listMax]
  | cons a l =>
    rw [listMax]
    match hl : listMax l with
    | none => simp
    | some m => simp

theorem listMax_mem {l : List Nat} {m : Nat} (h : listMax l = some m) :
    m ∈ l := by
  induction l generalizing m with
  | nil => simp [listMax] at h
  | cons a l ih =>
    rw [listMax] at h
    match hl : listMax l with
    | none => simp [hl] at h; simp [h]
    | some m' =>
      simp [hl] at h
      by_cases hle : a ≤ m'
      · simp [hle] at h; right; rw [← h]; exact ih hl
      · simp [hle] at h; exact h ▸ List.mem_cons_self a l

theorem listMax_ge {l : List Nat} {m : Nat} (h : listMax l = some m) :
    ∀ x ∈ l, x ≤ m := by
  induction l generalizing m with
  | nil => simp
  | cons a l ih =>
    rw [listMax] at h
    intro x hx
    match hl : listMax l with
    | none =>
      have : l = [] := listMax_eq_none.mp hl
      subst this
      simp [hl] at h
      simp at hx
      omega
    | some m' =>
      simp [hl] at h
      have hm' := ih hl
      rcases List.mem_cons.mp hx with rfl | hmem
      · by_cases hle : x ≤ m' <;> simp [hle] at h <;> omega
      · have := hm' x hmem
        by_cases hle : a ≤ m' <;> simp [hle] at h <;> omega

/-- `TagalogDictionaryScraper.url`. -/
def url : String := "https://tagalog.pinoydictionary.com"

/-- `TagalogDictionaryScraper.parts_of_speech`: the fixed known-tag
vocabulary, in source order. -/
def parts_of_speech : List String :=
  ["n.", "syn.", "bot.", "zoo.", "by ext.", "interrog.", "gram.",
   "idiom.", "prep.", "pref.", "pers.", "conj.", "med.", "mat.",
   "electr.", "mil.", "intrj.", "adv.", "pron.", "comp.", "adj.",
   "v.", "inf.", "pl.", "coll.", "fig.", "poss.", "anat.", "rel.",
   "pseudo-verb", "existential", "imp.", "expr.", "excl.", "adj",
   "[n]", "vinf.", "n", "v.,inf.", "n.,zoo.", "adj./adv."]

/-- One iteration of the scan loop in `_get_parts_of_speech`: look up the
tag's first occurrence and record `index ↦ tag` when found. -/
def posStep (text : List Char) (d : List (Nat × String)) (tag : String) :
    List (Nat × String) :=
  match strFind text tag.toList with
  | some i => dictInsert d i tag
  | none => d

/-- The `indices_pos_mapping` dict built by `_get_parts_of_speech`:
for every vocabulary tag occurring in `text`, its first-occurrence
index maps to the tag; a later tag sharing an index overwrites the
earlier tag's value at that key. -/
def indices_pos_mapping (text : List Char) : List (Nat × String) :=
  parts_of_speech.foldl (posStep text) []

/-- Embeds `TagalogDictionaryScraper._get_parts_of_speech` (the
tag-extraction half of the disambiguator), with `text` the text of the
definition element.  `max` over the keys of an empty dict raises
`ValueError` in Python (there is no guard and no dedicated error), so
the empty-mapping case is `Except.error PyError.valueError`. -/
def _get_parts_of_speech (text : List Char) : Except PyError (List String) :=
  match listMax ((indices_pos_mapping text).map Prod.fst) with
  | none => Except.error PyError.valueError
  | some maxIdx =>
    Except.ok
      ((((indices_pos_mapping text).filter
          (fun kv => kv.1 != maxIdx)).map Prod.snd) ++
        [(((indices_pos_mapping text).find?
          (fun kv => kv.1 == maxIdx)).map Prod.snd).getD ""])

/-- Embeds `TagalogDictionaryScraper._get_definition`:
`definition.text.split(part_of_speech)[-1].strip()`. -/
def _get_definition (text tag : List Char) : List Char :=
  pyStrip ((pySplit text tag).getLastD [])

/-- One `div.word-group` block of a listing page, reduced to the fields
`_get_words_info` reads: the first anchor's text (the headword) and the
text of the first `div.definition p` element. -/
structure WordGroup where
  word : String
  definitionText : List Char
  deriving DecidableEq, Repr

/-- The accumulated `words` dict: headword to (parts_of_speech,
definition), in insertion order with last-write-wins updates. -/
abbrev Words := List (String × (List String × List Char))

/-- The inner `for group in word_group` loop of `_get_words_info`.
There is no try/except around the body: an exception from
`_get_parts_of_speech` propagates immediately, discarding the whole
accumulated dict. -/
def processGroups (words : Words) : List WordGroup → Except PyError Words
  | [] => Except.ok words
  | g :: gs =>
    match _get_parts_of_speech g.definitionText with
    | Except.error e => Except.error e
    | Except.ok pos =>
      let defn := _get_definition g.definitionText (pos.getLastD "").toList
      processGroups (dictInsert words g.word (pos, defn)) gs

/-- The outer `for html in htmls` loop of `_get_words_info`. -/
def processPages (words : Words) : List (List WordGroup) → Except PyError Words
  | [] => Except.ok words
  | page :: rest =>
    match processGroups words page with
    | Except.error e => Except.error e
    | Except.ok w => processPages w rest

/-- Embeds `TagalogDictionaryScraper._get_words_info`, with each fetched
page modelled as its list of word-group blocks. -/
def _get_words_info (htmls : List (List WordGroup)) : Except PyError Words :=
  processPages [] htmls

/-- Embeds `TagalogDictionaryScraper._get_all_urls_by_letter`: for
`current_page` in `range(1, last_page)`, build
`'{url}/list/{letter}/{current_page}/'`, where page 1 uses the empty
page segment (so its URL ends in a double slash). -/
def _get_all_urls_by_letter (letter : String) (last_page : Nat) : List String :=
  (List.range' 1 (last_page - 1)).map (fun current_page =>
    url ++ "/list/" ++ letter ++ "/" ++
      (if current_page = 1 then "" else toString current_page) ++ "/")

/-- An `<a>` element as read by the pagination code: its `title`
attribute and its attribute dict. -/
structure Anchor where
  title : String
  attrs : List (String × String)
  deriving DecidableEq, Repr

/-- Python's `int(s)` on a string: optional sign and decimal digits
after stripping whitespace, `none` modelling `ValueError`. -/
def pyInt (s : String) : Option Int :=
  match pyStrip s.toList with
  | '-' :: ds =>
    if !ds.isEmpty && ds.all Char.isDigit then
      some (-(ds.foldl (fun n c => n * 10 + (c.toNat - 48)) 0 : Nat))
    else none
  | '+' :: ds =>
    if !ds.isEmpty && ds.all Char.isDigit then
      some ((ds.foldl (fun n c => n * 10 + (c.toNat - 48)) 0 : Nat))
    else none
  | ds =>
    if !ds.isEmpty && ds.all Char.isDigit then
      some ((ds.foldl (fun n c => n * 10 + (c.toNat - 48)) 0 : Nat))
    else none

/-- Embeds the pagination-discovery block of `scrape` (the try/except
around `response.find('a[title^=Last]', first=True)`), with the first
listing page modelled as its list of anchors.  Only `AttributeError`
(the anchor being absent, so that `None.attrs` fails) is caught and
turned into the single-page default `2`; a missing `href` key, a path
with fewer than two `'/'`-separated segments, or a non-integer segment
raise `KeyError`, `IndexError` and `ValueError`, none of which the
source catches. -/
def discover_last_page (doc : List Anchor) : Except PyError Int :=
  match doc.find? (fun a => "Last".toList.isPrefixOf a.title.toList) with
  | none => Except.ok 2
  | some a =>
    match (a.attrs.find? (fun kv => kv.1 == "href")).map Prod.snd with
    | none => Except.error PyError.keyError
    | some href =>
      let segs := (pySplit href.toList "/".toList).map List.asString
      if h : segs.length < 2 then Except.error PyError.indexError
      else
        match pyInt (segs.getD (segs.length - 2) "") with
        | none => Except.error PyError.valueError
        | some k => Except.ok (k + 1)

/-- The `chunk_list` helper inside `_get_pages_content_async`: successive
`n`-sized slices `l[i:i+n]`.  Python raises `ValueError` for step `n = 0`;
the embedding is only ever used with `0 < n`. -/
def chunk_list {α : Type} : List α → Nat → List (List α)
  | [], _ => []
  | _ :: _, 0 => []
  | a :: l, n + 1 => ((a :: l).take (n + 1)) :: chunk_list (l.drop n) (n + 1)
termination_by l _ => l.length
decreasing_by
  simp only [List.length_drop, List.length_cons]
  omega

/-- The first loop of `_get_pages_content`: fetch each URL, appending
successes to `contents` and skipping failures (`except Exception:
continue`). -/
def sequential_contents {α : Type} (fetch : String → Except PyError α)
    (urls : List String) : List α :=
  urls.foldl (fun contents u =>
    match fetch u with
    | Except.ok d => contents ++ [d]
    | Except.error _ => contents) []

/-- Embeds `TagalogDictionaryScraper._get_pages_content`, with the
transport abstracted as `fetch`.  The skip-on-failure loop result
`contents` is computed but dead: the function returns
`[self._get_url_content(url) for url in urls]`, a re-fetch of every URL
with no exception handler, so any failing URL propagates its error. -/
def _get_pages_content {α : Type} (fetch : String → Except PyError α)
    (urls : List String) : Except PyError (List α) :=
  let _contents := sequential_contents fetch urls
  urls.mapM fetch

/-- Embeds `TagalogDictionaryScraper._get_pages_content_async`, with the
transport abstracted as `fetch`.  The external `AsyncHTMLSession.run` is
modelled by its documented contract (results in the order the
coroutines are passed, i.e. `chunk.map fetch` per chunk), and
`all_results.extend(...)` appends each chunk's results in chunk order. -/
def _get_pages_content_async {α : Type} (fetch : String → α)
    (urls : List String) (max_urls : Nat) : List α :=
  (chunk_list urls max_urls).foldl
    (fun all_results chunk => all_results ++ chunk.map fetch) []

section DictLemmas

variable {κ ν : Type} [BEq κ] [LawfulBEq κ]

theorem dict_any_iff (d : List (κ × ν)) (k : κ) :
    d.any (fun kv => kv.1 == k) = true ↔ k ∈ d.map Prod.fst := by
  rw [List.any_eq_true]
  constructor
  · rintro ⟨kv, hkv, hb⟩
    exact List.mem_map.mpr ⟨kv, hkv, eq_of_beq hb⟩
  · rintro hk
    obtain ⟨kv, hkv, rfl⟩ := List.mem_map.mp hk
    exact ⟨kv, hkv, beq_self_eq_true _⟩

theorem map_replace_id {d : List (κ × ν)} {k : κ} {v : ν}
    (h : k ∉ d.map Prod.fst) :
    d.map (fun kv => if kv.1 == k then (k, v) else kv) = d := by
  induction d with
  | nil => rfl
  | cons kv d ih =>
    simp only [List.map_cons, List.mem_cons, not_or] at h ⊢
    have hne : ¬ (kv.1 == k) = true := by
      simp only [beq_iff_eq]
      intro hc
      exact h.1 (by simp [hc])
    rw [if_neg hne, ih (by intro hc; exact h.2 (by simpa using hc))]

theorem mem_dictInsert {d : List (κ × ν)} {k : κ} {v : ν} {kv : κ × ν}
    (h : kv ∈ dictInsert d k v) : kv = (k, v) ∨ kv ∈ d := by
  unfold dictInsert at h
  by_cases hk : d.any (fun kv => kv.1 == k) = true
  · rw [if_pos hk] at h
    obtain ⟨kv', hkv', heq⟩ := List.mem_map.mp h
    by_cases hb : (kv'.1 == k) = true
    · rw [if_pos hb] at heq; left; exact heq.symm
    · rw [if_neg hb] at heq; right; exact heq ▸ hkv'
  · rw [if_neg hk] at h
    rcases List.mem_append.mp h with h | h
    · right; exact h
    · left; simpa using h

theorem dictInsert_keys_of_mem {d : List (κ × ν)} {k : κ} (v : ν)
    (h : k ∈ d.map Prod.fst) :
    (dictInsert d k v).map Prod.fst = d.map Prod.fst := by
  unfold dictInsert
  rw [if_pos ((dict_any_iff d k).mpr h)]
  rw [List.map_map]
  apply List.map_congr_left
  intro kv _
  by_cases hb : (kv.1 == k) = true
  · simp only [Function.comp_apply, if_pos hb]
    exact (eq_of_beq hb).symm
  · simp only [Function.comp_apply, if_neg hb]

theorem dictInsert_of_not_mem {d : List (κ × ν)} {k : κ} (v : ν)
    (h : k ∉ d.map Prod.fst) :
    dictInsert d k v = d ++ [(k, v)] := by
  unfold dictInsert
  rw [if_neg (by intro hc; exact h ((dict_any_iff d k).mp hc))]

theorem dictInsert_keys_sub {d : List (κ × ν)} {k k' : κ} (v : ν)
    (h : k' ∈ d.map Prod.fst) : k' ∈ (dictInsert d k v).map Prod.fst := by
  by_cases hk : k ∈ d.map Prod.fst
  · rw [dictInsert_keys_of_mem v hk]; exact h
  · rw [dictInsert_of_not_mem v hk]; simp [h]

theorem mem_keys_dictInsert (d : List (κ × ν)) (k : κ) (v : ν) :
    k ∈ (dictInsert d k v).map Prod.fst := by
  by_cases hk : k ∈ d.map Prod.fst
  · rw [dictInsert_keys_of_mem v hk]; exact hk
  · rw [dictInsert_of_not_mem v hk]; simp

theorem dictInsert_keys_nodup {d : List (κ × ν)} {k : κ} (v : ν)
    (h : (d.map Prod.fst).Nodup) :
    ((dictInsert d k v).map Prod.fst).Nodup := by
  by_cases hk : k ∈ d.map Prod.fst
  · rw [dictInsert_keys_of_mem v hk]; exact h
  · rw [dictInsert_of_not_mem v hk]
    simp only [List.map_append, List.map_cons, List.map_nil]
    rw [List.nodup_append]
    exact ⟨h, List.nodup_singleton _, by
      intro a ha hb
      simp at hb
      exact hk (hb ▸ ha)⟩

theorem dictInsert_values_sub {d : List (κ × ν)} {k : κ} {v w : ν}
    (h : w ∈ (dictInsert d k v).map Prod.snd) :
    w = v ∨ w ∈ d.map Prod.snd := by
  obtain ⟨kv, hkv, rfl⟩ := List.mem_map.mp h
  rcases mem_dictInsert hkv with rfl | hmem
  · left; rfl
  · right; exact List.mem_map_of_mem Prod.snd hmem

theorem dictInsert_values_nodup {d : List (κ × ν)} {k : κ} {v : ν}
    (hk : (d.map Prod.fst).Nodup) (hv : (d.map Prod.snd).Nodup)
    (hnv : v ∉ d.map Prod.snd) :
    ((dictInsert d k v).map Prod.snd).Nodup := by
  induction d with
  | nil => simp [dictInsert]
  | cons kv d ih =>
    by_cases hmem : k ∈ (kv :: d).map Prod.fst
    · unfold dictInsert
      rw [if_pos ((dict_any_iff _ k).mpr hmem)]
      simp only [List.map_cons] at hk hv ⊢
      by_cases hb : (kv.1 == k) = true
      · rw [if_pos hb]
        have hknot : k ∉ d.map Prod.fst := by
          have := (List.nodup_cons.mp hk).1
          intro hc
          exact this ((eq_of_beq hb) ▸ hc)
        rw [map_replace_id hknot]
        simp only [List.map_cons, List.nodup_cons]
        refine ⟨?_, (List.nodup_cons.mp hv).2⟩
        intro hc
        exact hnv (by simp [hc])
      · rw [if_neg hb]
        simp only [List.map_cons, List.nodup_cons]
        have hmem' : k ∈ d.map Prod.fst := by
          rcases List.mem_cons.mp hmem with hc | hc
          · exact absurd (by simp [hc.symm]) hb
          · exact hc
        have hrec : ((dictInsert d k v).map Prod.snd).Nodup := by
          apply ih (List.nodup_cons.mp hk).2 (List.nodup_cons.mp hv).2
          intro hc
          exact hnv (by simp [hc])
        have heq : dictInsert d k v =
            d.map (fun kv => if kv.1 == k then (k, v) else kv) := by
          unfold dictInsert
          rw [if_pos ((dict_any_iff _ k).mpr hmem')]
        refine ⟨?_, heq ▸ hrec⟩
        intro hc
        rcases dictInsert_values_sub (heq ▸ hc) with hc' | hc'
        · exact hnv (by simp [hc'])
        · exact (List.nodup_cons.mp hv).1 hc'
    · rw [dictInsert_of_not_mem v hmem]
      simp only [List.map_append, List.map_cons, List.map_nil]
      rw [List.nodup_append]
      exact ⟨hv, List.nodup_singleton _, by
        intro a ha hb
        simp at hb
        exact hnv (hb ▸ ha)⟩

end DictLemmas

/-- Invariants of the `indices_pos_mapping` scan loop, proved for an
arbitrary suffix `L` of the vocabulary and an arbitrary accumulated
dict `d`. -/
theorem posFold_inv (text : List Char) (L : List String) :
    ∀ d : List (Nat × String),
      (d.map Prod.fst).Nodup →
      (d.map Prod.snd).Nodup →
      (∀ kv ∈ d, strFind text kv.2.toList = some kv.1) →
      (∀ v ∈ d.map Prod.snd, v ∉ L) →
      L.Nodup →
      ((L.foldl (posStep text) d).map Prod.fst).Nodup ∧
      ((L.foldl (posStep text) d).map Prod.snd).Nodup ∧
      (∀ kv ∈ L.foldl (posStep text) d, strFind text kv.2.toList = some kv.1) ∧
      (∀ v ∈ (L.foldl (posStep text) d).map Prod.snd,
        v ∈ L ∨ v ∈ d.map Prod.snd) ∧
      (∀ k ∈ d.map Prod.fst, k ∈ (L.foldl (posStep text) d).map Prod.fst) ∧
      (∀ t ∈ L, ∀ i, strFind text t.toList = some i →
        i ∈ (L.foldl (posStep text) d).map Prod.fst) := by
  induction L with
  | nil =>
    intro d h1 h2 h3 _ _
    refine ⟨h1, h2, h3, ?_, ?_, ?_⟩ <;> simp_all
  | cons t L ih =>
    intro d h1 h2 h3 h4 h5
    have htL : t ∉ L := (List.nodup_cons.mp h5).1
    have hLn : L.Nodup := (List.nodup_cons.mp h5).2
    have htv : t ∉ d.map Prod.snd := by
      intro hc
      exact h4 t hc (List.mem_cons_self t L)
    rw [List.foldl_cons]
    rcases hft : strFind text t.toList with _ | i
    · have hstep : posStep text d t = d := by unfold posStep; rw [hft]
      rw [hstep]
      obtain ⟨c1, c2, c3, c4, c5, c6⟩ := ih d h1 h2 h3
        (fun v hv => fun hc => h4 v hv (List.mem_cons_of_mem t hc)) hLn
      refine ⟨c1, c2, c3, ?_, c5, ?_⟩
      · intro v hv
        rcases c4 v hv with hc | hc
        · exact Or.inl (List.mem_cons_of_mem t hc)
        · exact Or.inr hc
      · intro t' ht' i hi
        rcases List.mem_cons.mp ht' with rfl | ht'
        · rw [hft] at hi; cases hi
        · exact c6 t' ht' i hi
    · have hstep : posStep text d t = dictInsert d i t := by unfold posStep; rw [hft]
      rw [hstep]
      have h1' : ((dictInsert d i t).map Prod.fst).Nodup :=
        dictInsert_keys_nodup t h1
      have h2' : ((dictInsert d i t).map Prod.snd).Nodup :=
        dictInsert_values_nodup h1 h2 htv
      have h3' : ∀ kv ∈ dictInsert d i t, strFind text kv.2.toList = some kv.1 := by
        intro kv hkv
        rcases mem_dictInsert hkv with rfl | hkv'
        · exact hft
        · exact h3 kv hkv'
      have h4' : ∀ v ∈ (dictInsert d i t).map Prod.snd, v ∉ L := by
        intro v hv
        rcases dictInsert_values_sub hv with rfl | hv'
        · exact htL
        · exact fun hc => h4 v hv' (List.mem_cons_of_mem t hc)
      obtain ⟨c1, c2, c3, c4, c5, c6⟩ := ih (dictInsert d i t) h1' h2' h3' h4' hLn
      refine ⟨c1, c2, c3, ?_, ?_, ?_⟩
      · intro v hv
        rcases c4 v hv with hc | hc
        · exact Or.inl (List.mem_cons_of_mem t hc)
        · rcases dictInsert_values_sub hc with h' | hc'
          · exact Or.inl (by rw [h']; exact List.mem_cons_self t L)
          · exact Or.inr hc'
      · intro k hk
        exact c5 k (dictInsert_keys_sub t hk)
      · intro t' ht' j hj
        rcases List.mem_cons.mp ht' with rfl | ht'
        · rw [hft] at hj
          cases hj
          exact c5 i (mem_keys_dictInsert d i t')
        · exact c6 t' ht' j hj

/-- The vocabulary contains no duplicate and no empty tag. -/
theorem parts_of_speech_nodup : parts_of_speech.Nodup := by decide

theorem parts_of_speech_ne_nil : ∀ t ∈ parts_of_speech, t.toList ≠ [] := by
  decide

/-- Combined invariants of the finished `indices_pos_mapping`. -/
theorem indices_pos_mapping_inv (text : List Char) :
    ((indices_pos_mapping text).map Prod.fst).Nodup ∧
    ((indices_pos_mapping text).map Prod.snd).Nodup ∧
    (∀ kv ∈ indices_pos_mapping text,
      kv.2 ∈ parts_of_speech ∧ strFind text kv.2.toList = some kv.1) ∧
    (∀ t ∈ parts_of_speech, ∀ i, strFind text t.toList = some i →
      i ∈ (indices_pos_mapping text).map Prod.fst) := by
  obtain ⟨c1, c2, c3, c4, _, c6⟩ :=
    posFold_inv text parts_of_speech []
      (by simp) (by simp) (by simp) (by simp) parts_of_speech_nodup
  refine ⟨c1, c2, ?_, c6⟩
  intro kv hkv
  refine ⟨?_, c3 kv hkv⟩
  have := c4 kv.2 (List.mem_map_of_mem Prod.snd hkv)
  simpa using this

/-- Structure of a successful `_get_parts_of_speech` run: there is a
maximum first-occurrence index `maxIdx`, the returned list is the
mapping's remaining values followed by the value stored at `maxIdx`. -/
theorem gps_ok_struct {text : List Char} {pos : List String}
    (h : _get_parts_of_speech text = Except.ok pos) :
    ∃ maxIdx kv,
      listMax ((indices_pos_mapping text).map Prod.fst) = some maxIdx ∧
      kv ∈ indices_pos_mapping text ∧ kv.1 = maxIdx ∧
      pos = ((indices_pos_mapping text).filter
        (fun kv => kv.1 != maxIdx)).map Prod.snd ++ [kv.2] := by
  unfold _get_parts_of_speech at h
  split at h
  · cases h
  · rename_i maxIdx hm
    have hmem : maxIdx ∈ (indices_pos_mapping text).map Prod.fst :=
      listMax_mem hm
    obtain ⟨kv0, hkv0, hfst⟩ := List.mem_map.mp hmem
    have hfs : ((indices_pos_mapping text).find?
        (fun kv => kv.1 == maxIdx)).isSome :=
      List.find?_isSome.mpr ⟨kv0, hkv0, by simp [hfst]⟩
    obtain ⟨kv, hfind⟩ := Option.isSome_iff_exists.mp hfs
    refine ⟨maxIdx, kv, hm, List.mem_of_find?_eq_some hfind, ?_, ?_⟩
    · have hp := List.find?_some hfind
      simp at hp
      exact hp
    · rw [hfind] at h
      simpa using h.symm
/-- Tags returned by a successful `_get_parts_of_speech` run are drawn
from the vocabulary, without repetition. -/
theorem gps_ok_vocab_nodup {text : List Char} {pos : List String}
    (h : _get_parts_of_speech text = Except.ok pos) :
    (∀ t ∈ pos, t ∈ parts_of_speech) ∧ pos.Nodup := by
  obtain ⟨maxIdx, kv, hm, hkv, hkvfst, rfl⟩ := gps_ok_struct h
  obtain ⟨hkn, hvn, hinv, _⟩ := indices_pos_mapping_inv text
  constructor
  · intro t ht
    rcases List.mem_append.mp ht with ht | ht
    · obtain ⟨kv', hkv', rfl⟩ := List.mem_map.mp ht
      exact (hinv kv' (List.mem_of_mem_filter hkv')).1
    · simp at ht
      exact ht ▸ (hinv kv hkv).1
  · have hsub : (((indices_pos_mapping text).filter
        (fun kv => kv.1 != maxIdx)).map Prod.snd).Sublist
        ((indices_pos_mapping text).map Prod.snd) :=
      (List.filter_sublist _).map Prod.snd
    have hA : (((indices_pos_mapping text).filter
        (fun kv => kv.1 != maxIdx)).map Prod.snd).Nodup :=
      List.Nodup.sublist hsub hvn
    apply hA.append (List.nodup_singleton _)
    intro x hx hx2
    simp at hx2
    obtain ⟨kv', hkv', hsnd⟩ := List.mem_map.mp hx
    have hne : kv'.1 ≠ maxIdx := by
      have := List.of_mem_filter hkv'
      simpa using this
    have heq : kv' = kv :=
      List.inj_on_of_nodup_map hvn (List.mem_of_mem_filter hkv') hkv
        (by rw [hsnd, hx2])
    exact hne (heq ▸ hkvfst)

/-- A successful `_get_parts_of_speech` run returns a non-empty list
whose final element is a vocabulary tag. -/
theorem gps_ok_last {text : List Char} {pos : List String}
    (h : _get_parts_of_speech text = Except.ok pos) :
    pos ≠ [] ∧ pos.getLastD "" ∈ parts_of_speech := by
  obtain ⟨maxIdx, kv, hm, hkv, hkvfst, rfl⟩ := gps_ok_struct h
  obtain ⟨_, _, hinv, _⟩ := indices_pos_mapping_inv text
  refine ⟨by simp, ?_⟩
  rw [List.getLastD_concat]
  exact (hinv kv hkv).1

theorem getLastD_congr {α : Type} (l : List α) (a b : α) (h : l ≠ []) :
    l.getLastD a = l.getLastD b := by
  cases l with
  | nil => cases h rfl
  | cons x l => rw [List.getLastD_cons, List.getLastD_cons]

theorem pySplitGo_getLast_no_occur (sep : List Char) (hsep : sep ≠ [])
    (fuel : Nat) :
    ∀ s : List Char, s.length < fuel →
      ∀ i, ¬ sep.isPrefixOf (((pySplitGo sep fuel s).getLastD []).drop i) := by
  induction fuel with
  | zero => intro s hs; omega
  | succ fuel ih =>
    intro s hs
    rw [pySplitGo]
    match hf : strFind s sep with
    | none =>
      intro i
      exact strFind_none hf i
    | some j =>
      have hne := pySplitGo_ne_nil sep fuel (s.drop (j + sep.length))
      have hb := strFind_bound hf
      have hl : 0 < sep.length := List.length_pos.mpr hsep
      have hlen : (s.drop (j + sep.length)).length < fuel := by
        simp only [List.length_drop]
        omega
      intro i
      rw [List.getLastD_cons, getLastD_congr _ _ [] hne]
      exact ih (s.drop (j + sep.length)) hlen i

/-- The final fragment of `pySplit` contains no occurrence of the
separator. -/
theorem pySplit_getLast_no_occur (s sep : List Char) (hsep : sep ≠ []) :
    ∀ i, ¬ sep.isPrefixOf (((pySplit s sep).getLastD []).drop i) := by
  rw [pySplit, if_neg hsep]
  exact pySplitGo_getLast_no_occur sep hsep (s.length + 1) s (by omega)

/-- `pyStrip f` is a contiguous piece of `f`: some suffix of `f` starts
with it. -/
theorem pyStrip_sub (f : List Char) :
    ∃ i t, f.drop i = pyStrip f ++ t := by
  have hsf : f.dropWhile pyIsSpace <:+ f := List.dropWhile_suffix pyIsSpace
  obtain ⟨u, hu⟩ := hsf
  have hsr : (f.dropWhile pyIsSpace).reverse.dropWhile pyIsSpace <:+
      (f.dropWhile pyIsSpace).reverse := List.dropWhile_suffix pyIsSpace
  have hpre : pyStrip f <+: f.dropWhile pyIsSpace := by
    rw [← List.reverse_suffix]
    simpa [pyStrip] using hsr
  obtain ⟨t, ht⟩ := hpre
  refine ⟨u.length, t, ?_⟩
  have hg : f.drop u.length = f.dropWhile pyIsSpace := by
    conv_lhs => rw [← hu]
    simp
  rw [hg, ← ht]

/-- The split tag never reappears in (so in particular never leads) the
extracted definition text. -/
theorem tag_not_prefix_definition (text tag : List Char) (htag : tag ≠ []) :
    ¬ tag <+: _get_definition text tag := by
  intro hpre
  unfold _get_definition at hpre
  obtain ⟨i, t, hit⟩ := pyStrip_sub ((pySplit text tag).getLastD [])
  have h2 : pyStrip ((pySplit text tag).getLastD []) <+:
      ((pySplit text tag).getLastD []).drop i := ⟨t, hit.symm⟩
  have h3 := hpre.trans h2
  exact pySplit_getLast_no_occur text tag htag i
    (List.isPrefixOf_iff_prefix.mpr h3)

/-- The invariant every successfully stored word entry satisfies: a
non-empty tag list whose last element is the exact tag the definition
was split on, and a definition that the tag does not lead. -/
def EntryOK (e : String × (List String × List Char)) : Prop :=
  e.2.1 ≠ [] ∧
  ∃ text : List Char,
    _get_parts_of_speech text = Except.ok e.2.1 ∧
    e.2.2 = _get_definition text (e.2.1.getLastD "").toList ∧
    ¬ ((e.2.1.getLastD "").toList <+: e.2.2)

theorem processGroups_inv {words : Words} {gs : List WordGroup} {w : Words}
    (hindv : ∀ e ∈ words, EntryOK e)
    (h : processGroups words gs = Except.ok w) :
    ∀ e ∈ w, EntryOK e := by
  induction gs generalizing words with
  | nil =>
    rw [processGroups] at h
    cases h
    exact hindv
  | cons g gs ih =>
    rw [processGroups] at h
    rcases hg : _get_parts_of_speech g.definitionText with e | pos
    · rw [hg] at h
      exact absurd h (by simp)
    · rw [hg] at h
      have h' : processGroups
          (dictInsert words g.word
            (pos, _get_definition g.definitionText (pos.getLastD "").toList))
          gs = Except.ok w := h
      apply ih ?_ h'
      intro e he
      rcases mem_dictInsert he with rfl | he'
      · obtain ⟨hne, hlast⟩ := gps_ok_last hg
        exact ⟨hne, g.definitionText, hg, rfl,
          tag_not_prefix_definition _ _ (parts_of_speech_ne_nil _ hlast)⟩
      · exact hindv e he'

theorem processPages_inv {words : Words} {pages : List (List WordGroup)}
    {w : Words} (hindv : ∀ e ∈ words, EntryOK e)
    (h : processPages words pages = Except.ok w) :
    ∀ e ∈ w, EntryOK e := by
  induction pages generalizing words with
  | nil =>
    rw [processPages] at h
    cases h
    exact hindv
  | cons page pages ih =>
    rw [processPages] at h
    rcases hp : processGroups words page with e | w'
    · rw [hp] at h
      exact absurd h (by simp)
    · rw [hp] at h
      exact ih (processGroups_inv hindv hp) h

/-- If no tag of `L` occurs in the text, the scan loop leaves the dict
unchanged. -/
theorem noTag_fold_id (text : List Char) :
    ∀ (L : List String) (d : List (Nat × String)),
      (∀ t ∈ L, strFind text t.toList = none) →
      L.foldl (posStep text) d = d := by
  intro L
  induction L with
  | nil => intro d _; rfl
  | cons t L ih =>
    intro d h
    rw [List.foldl_cons]
    have hstep : posStep text d t = d := by
      unfold posStep
      rw [h t (List.mem_cons_self t L)]
    rw [hstep]
    exact ih d (fun t' ht' => h t' (List.mem_cons_of_mem t ht'))

/-- Every chunk produced by `chunk_list` has at most `n` elements. -/
theorem chunk_list_length {α : Type} (l : List α) (n : Nat) (h : 0 < n) :
    ∀ c ∈ chunk_list l n, c.length ≤ n := by
  match l, n with
  | [], _ =>
    rw [chunk_list]
    simp
  | _ :: _, 0 => omega
  | a :: l, n + 1 =>
    rw [chunk_list]
    intro c hc
    rcases List.mem_cons.mp hc with rfl | hc
    · exact List.length_take_le _ _
    · exact chunk_list_length (l.drop n) (n + 1) h c hc
termination_by l.length
decreasing_by
  simp only [List.length_drop, List.length_cons]
  omega

/-- Concatenating the chunks recovers the original list. -/
theorem chunk_list_flatten {α : Type} (l : List α) (n : Nat) (h : 0 < n) :
    (chunk_list l n).flatten = l := by
  match l, n with
  | [], _ =>
    rw [chunk_list]
    rfl
  | _ :: _, 0 => omega
  | a :: l, n + 1 =>
    rw [chunk_list, List.flatten_cons,
      chunk_list_flatten (l.drop n) (n + 1) h]
    rw [List.take_cons, List.cons_append]
    simp only [Nat.add_sub_cancel]
    rw [List.take_append_drop]
    exact h
termination_by l.length
decreasing_by
  simp only [List.length_drop, List.length_cons]
  omega

theorem foldl_append_chunks {α : Type} (fetch : String → α) :
    ∀ (L : List (List String)) (acc : List α),
      L.foldl (fun r c => r ++ c.map fetch) acc =
        acc ++ (L.map (fun c => c.map fetch)).flatten := by
  intro L
  induction L with
  | nil => intro acc; simp
  | cons c L ih =>
    intro acc
    rw [List.foldl_cons, ih, List.map_cons, List.flatten_cons,
      List.append_assoc]

/-! Claim theorems. -/

/-- C1 (counterexample): the claim says disambiguation of
`"bahay n. syn. tahanan house; home"` returns the ordered tag list
`["n.", "syn."]`; it does not. -/
theorem c1_counterexample :
    _get_parts_of_speech "bahay n. syn. tahanan house; home".toList ≠
      Except.ok ["n.", "syn."] := by decide

/-- C1 (amended): disambiguation of
`"bahay n. syn. tahanan house; home"` returns the ordered tag list
`["n", "syn."]` — the bare vocabulary entry `"n"` first occurs at the
same index 6 as `"n."` and, being later in the vocabulary scan,
overwrites it in the index mapping — and the definition text
`"tahanan house; home"`. -/
theorem c1_amended_thm :
    _get_parts_of_speech "bahay n. syn. tahanan house; home".toList =
      Except.ok ["n", "syn."] ∧
    _get_definition "bahay n. syn. tahanan house; home".toList "syn.".toList =
      "tahanan house; home".toList := by decide

/-- C2: on a definition block containing no vocabulary tag,
`_get_parts_of_speech` fails with the unrelated empty-sequence
`ValueError` raised by `max()` on the empty index mapping, not with the
dedicated `NoPartOfSpeechFoundError` the spec requires (which the code
never defines or raises). -/
theorem c2_thm (text : List Char)
    (h : ∀ t ∈ parts_of_speech, strFind text t.toList = none) :
    _get_parts_of_speech text = Except.error PyError.valueError ∧
    _get_parts_of_speech text ≠
      Except.error PyError.noPartOfSpeechFoundError := by
  have hmap : indices_pos_mapping text = [] :=
    noTag_fold_id text parts_of_speech [] h
  have h1 : _get_parts_of_speech text = Except.error PyError.valueError := by
    unfold _get_parts_of_speech
    rw [hmap]
    rfl
  refine ⟨h1, ?_⟩
  rw [h1]
  simp

/-- C2 (witness): the tagless text `"xyz"` produces the `ValueError`. -/
theorem c2_witness :
    _get_parts_of_speech "xyz".toList = Except.error PyError.valueError ∧
    _get_parts_of_speech "xyz".toList ≠
      Except.error PyError.noPartOfSpeechFoundError :=
  c2_thm "xyz".toList (by decide)

/-- C3: a single tagless entry makes `_get_words_info` abort the whole
extraction with the propagated `ValueError` — the entry is not skipped
and the other (individually extractable, as the second conjunct shows)
entries are lost, contrary to the claimed log-and-skip policy. -/
theorem c3_evidence :
    _get_words_info
      [[⟨"bahay", "bahay n. syn. tahanan house; home".toList⟩,
        ⟨"x", "xyz".toList⟩,
        ⟨"masungit", "masungit adj. ill-tempered; irritable".toList⟩]] =
      Except.error PyError.valueError ∧
    _get_words_info
      [[⟨"bahay", "bahay n. syn. tahanan house; home".toList⟩,
        ⟨"masungit", "masungit adj. ill-tempered; irritable".toList⟩]] =
      Except.ok
        [("bahay", (["n", "syn."], "tahanan house; home".toList)),
         ("masungit", (["n", "adj"], ". ill-tempered; irritable".toList))] := by
  decide

/-- The concrete fallible fetcher used as C4's counterexample: the
second URL fails, the others succeed. -/
def fetchC4 : String → Except PyError String := fun u =>
  if u = "u2" then Except.error PyError.fetchError
  else Except.ok ("doc:" ++ u)

/-- C4: in sequential mode the skip-on-failure loop does compute the
successful documents in input order (first conjunct), but
`_get_pages_content` discards that list and returns an unguarded
re-fetch of every URL, so one failing URL aborts with the propagated
fetch error instead of being skipped. -/
theorem c4_evidence :
    sequential_contents fetchC4 ["u1", "u2", "u3"] = ["doc:u1", "doc:u3"] ∧
    _get_pages_content fetchC4 ["u1", "u2", "u3"] =
      Except.error PyError.fetchError := by decide

/-- C5: pagination discovery returns 2 when no "Last" anchor is present
and k+1 when the anchor's href ends in the integer segment k, but a
malformed anchor (non-integer trailing segment) raises an uncaught
`ValueError` instead of being treated like an absent anchor (only
`AttributeError` is caught). -/
theorem c5_evidence :
    discover_last_page [] = Except.ok 2 ∧
    discover_last_page [⟨"Last Page",
      [("href", "https://tagalog.pinoydictionary.com/list/a/7/")]⟩] =
      Except.ok 8 ∧
    discover_last_page [⟨"Last Page",
      [("href", "https://tagalog.pinoydictionary.com/list/a/x/")]⟩] =
      Except.error PyError.valueError ∧
    (Except.error PyError.valueError : Except PyError Int) ≠ Except.ok 2 := by
  decide

/-- C6: URL enumeration for letter `L` and last page bound `n` yields
exactly `n - 1` URLs in ascending page order; the first (page 1) has an
empty page segment and the URL at position `i ≥ 1` carries page index
`i + 1` (covering pages 2 through `n - 1`). -/
theorem c6_thm (L : String) (n : Nat) :
    (_get_all_urls_by_letter L n).length = n - 1 ∧
    ∀ i : Nat, i < n - 1 →
      (_get_all_urls_by_letter L n).getD i "" =
        url ++ "/list/" ++ L ++ "/" ++
          (if i = 0 then "" else toString (i + 1)) ++ "/" := by
  constructor
  · simp [_get_all_urls_by_letter]
  · intro i hi
    have hlen : i < (_get_all_urls_by_letter L n).length := by
      simp [_get_all_urls_by_letter]
      omega
    rw [List.getD_eq_getElem _ _ hlen]
    simp only [_get_all_urls_by_letter, List.getElem_map, List.getElem_range']
    by_cases h0 : i = 0
    · subst h0; simp
    · have h1 : 1 + 1 * i = i + 1 := by omega
      have h2 : ¬ (i + 1 = 1) := by omega
      rw [h1]
      simp [h0, h2]

/-- C6 (witness): letter `"a"` with `n = 4` yields 3 URLs, the one at
position 1 carrying page index 2. -/
theorem c6_witness :
    (_get_all_urls_by_letter "a" 4).length = 4 - 1 ∧
    (_get_all_urls_by_letter "a" 4).getD 1 "" =
      url ++ "/list/" ++ "a" ++ "/" ++
        (if (1 : Nat) = 0 then "" else toString (1 + 1)) ++ "/" :=
  ⟨(c6_thm "a" 4).1, (c6_thm "a" 4).2 1 (by decide)⟩

/-- C7 (counterexample): on `"n. adj x v. zzz"` the code returns
`["n", "adj", "v."]`, not the claimed "[all found tags other than the
maximum-index tag, in vocabulary-scan order] ++ [nearest tag]" — the
found tags are `n.`, `adj`, `n`, `v.`, so that reading predicts
`["n.", "adj", "n", "v."]`, and even restricted to the mapping's
surviving values the vocabulary-scan order would be
`["adj", "n", "v."]`. -/
theorem c7_counterexample :
    _get_parts_of_speech "n. adj x v. zzz".toList =
      Except.ok ["n", "adj", "v."] ∧
    (["n", "adj", "v."] : List String) ≠ ["n.", "adj", "n", "v."] ∧
    (["n", "adj", "v."] : List String) ≠ ["adj", "n", "v."] := by decide

/-- C7 (amended): whenever the disambiguation succeeds, the returned
sequence is the index mapping's surviving values in index-discovery
order (the order in which each first-occurrence index was first
recorded during the vocabulary scan — vocabulary order except that a
later tag overwrites, in place, the value of an already-seen index),
followed by the nearest-to-definition tag: the last returned tag is a
vocabulary tag whose first occurrence is at the maximal index among all
found tags, and the definition text is the trimmed final fragment of
splitting the raw text on all occurrences of that tag. -/
theorem c7_amended_thm (text : List Char) (pos : List String)
    (h : _get_parts_of_speech text = Except.ok pos) :
    ∃ lastTag maxIdx,
      pos = ((indices_pos_mapping text).filter
        (fun kv => kv.1 != maxIdx)).map Prod.snd ++ [lastTag] ∧
      lastTag ∈ parts_of_speech ∧
      strFind text lastTag.toList = some maxIdx ∧
      (∀ tag ∈ parts_of_speech, ∀ i, strFind text tag.toList = some i →
        i ≤ maxIdx) ∧
      _get_definition text lastTag.toList =
        pyStrip ((pySplit text lastTag.toList).getLastD []) := by
  obtain ⟨maxIdx, kv, hm, hkv, hfst, rfl⟩ := gps_ok_struct h
  obtain ⟨_, _, hinv, hkeys⟩ := indices_pos_mapping_inv text
  refine ⟨kv.2, maxIdx, rfl, (hinv kv hkv).1, ?_, ?_, rfl⟩
  · rw [← hfst]
    exact (hinv kv hkv).2
  · intro tag htag i hi
    exact listMax_ge hm i (hkeys tag htag i hi)

/-- C7 (witness): the amended statement instantiated on
`"bahay n. syn. tahanan house; home"` with result `["n", "syn."]`. -/
theorem c7_witness :
    ∃ lastTag maxIdx,
      (["n", "syn."] : List String) =
        ((indices_pos_mapping
          "bahay n. syn. tahanan house; home".toList).filter
          (fun kv => kv.1 != maxIdx)).map Prod.snd ++ [lastTag] ∧
      lastTag ∈ parts_of_speech ∧
      strFind "bahay n. syn. tahanan house; home".toList lastTag.toList =
        some maxIdx ∧
      (∀ tag ∈ parts_of_speech, ∀ i,
        strFind "bahay n. syn. tahanan house; home".toList tag.toList =
          some i → i ≤ maxIdx) ∧
      _get_definition "bahay n. syn. tahanan house; home".toList
          lastTag.toList =
        pyStrip ((pySplit "bahay n. syn. tahanan house; home".toList
          lastTag.toList).getLastD []) :=
  c7_amended_thm _ _ (by decide)

/-- C8: every successfully produced word entry has a non-empty tag
list, its last element is the exact tag string the definition was split
on, and the trimmed definition does not start with (indeed, nowhere
contains) that tag. -/
theorem c8_thm (htmls : List (List WordGroup)) (words : Words)
    (h : _get_words_info htmls = Except.ok words) :
    ∀ e ∈ words, EntryOK e :=
  processPages_inv (by simp) h

/-- C8 (witness): the invariant holds for the entry extracted from the
single-page, single-group input for `"bahay"`. -/
theorem c8_witness :
    EntryOK ("bahay", (["n", "syn."], "tahanan house; home".toList)) :=
  c8_thm [[⟨"bahay", "bahay n. syn. tahanan house; home".toList⟩]]
    [("bahay", (["n", "syn."], "tahanan house; home".toList))]
    (by decide)
    ("bahay", (["n", "syn."], "tahanan house; home".toList))
    (by decide)

/-- C9: for a positive batch size, `chunk_list` partitions the URL list
into consecutive chunks of at most `max_urls` URLs whose concatenation
is the input, and `_get_pages_content_async` returns the per-chunk
results (each chunk in input order, under the fetcher's documented
input-order contract) concatenated in chunk sequence order — overall
exactly the input order. -/
theorem c9_thm {α : Type} (fetch : String → α) (urls : List String)
    (max_urls : Nat) (h : 0 < max_urls) :
    (∀ c ∈ chunk_list urls max_urls, c.length ≤ max_urls) ∧
    (chunk_list urls max_urls).flatten = urls ∧
    _get_pages_content_async fetch urls max_urls =
      ((chunk_list urls max_urls).map (fun c => c.map fetch)).flatten ∧
    _get_pages_content_async fetch urls max_urls = urls.map fetch := by
  have h3 : _get_pages_content_async fetch urls max_urls =
      ((chunk_list urls max_urls).map (fun c => c.map fetch)).flatten := by
    unfold _get_pages_content_async
    rw [foldl_append_chunks]
    simp
  refine ⟨chunk_list_length urls max_urls h,
    chunk_list_flatten urls max_urls h, h3, ?_⟩
  rw [h3, ← List.map_flatten, chunk_list_flatten urls max_urls h]

/-- C9 (witness): three URLs with batch size 2. -/
theorem c9_witness :
    (∀ c ∈ chunk_list ["a", "b", "c"] 2, c.length ≤ 2) ∧
    (chunk_list ["a", "b", "c"] 2).flatten = ["a", "b", "c"] ∧
    _get_pages_content_async String.length ["a", "b", "c"] 2 =
      ((chunk_list ["a", "b", "c"] 2).map
        (fun c => c.map String.length)).flatten ∧
    _get_pages_content_async String.length ["a", "b", "c"] 2 =
      ["a", "b", "c"].map String.length :=
  c9_thm String.length ["a", "b", "c"] 2 (by decide)

/-- C10: a successful tag extraction returns only strings drawn from the
fixed vocabulary, each at most once. -/
theorem c10_thm (text : List Char) (pos : List String)
    (h : _get_parts_of_speech text = Except.ok pos) :
    (∀ t ∈ pos, t ∈ parts_of_speech) ∧ pos.Nodup :=
  gps_ok_vocab_nodup h

/-- C10 (witness): the tags extracted from
`"bahay n. syn. tahanan house; home"`. -/
theorem c10_witness :
    (∀ t ∈ (["n", "syn."] : List String), t ∈ parts_of_speech) ∧
    (["n", "syn."] : List String).Nodup :=
  c10_thm "bahay n. syn. tahanan house; home".toList ["n", "syn."]
    (by decide)

end TagalogScraper
